import Mathlib

/-!
Shallow embedding of the reptree repository's CRDT core
(`src/reptree-rs/src/types/mod.rs`, `src/crdt/state_vector.rs`,
`src/crdt/mod.rs`, `src/storage/sqlite.rs`).

Modelling conventions:
* Rust `u64` counters, timestamps and sequence numbers become `Nat`
  (no arithmetic in the embedded code paths can reach `u64` overflow on the
  states considered), `i64` sibling indices become `Int`.
* `HashMap`s become association lists; the vertex cache is modelled by its
  key-to-vertex content (the LRU recency order is irrelevant below the
  50,000-entry capacity, which no state considered here approaches).
* The SQLite-backed vertex table is a list of vertices in rowid order,
  `INSERT OR REPLACE` deletes the old row and appends the new one, and the
  two op-log tables are lists whose `seq` of an entry is its position + 1
  (`AUTOINCREMENT` starting at 1).
* Fallible Rust paths (`Result`) become `Except RTError`, threaded together
  with the mutated engine state.
-/

/-- Identifier of an operation: `OpId { peer_id, counter }` from
`types/mod.rs`. -/
structure OpId where
  peer_id : String
  counter : Nat
deriving DecidableEq, Repr

/-- Comparator `OpId::compare`: counter ascending, ties broken by
lexicographic peer id. -/
def OpId.compare (a b : OpId) : Ordering :=
  match Ord.compare a.counter b.counter with
  | Ordering.eq => Ord.compare a.peer_id b.peer_id
  | other => other

/-- The property-value sum type `VertexPropertyType` from `types/mod.rs`.
The `number` payload is Rust's `f64`; it is carried opaquely as `Float`
and never inspected by the engine code embedded here. -/
inductive VertexPropertyType where
  | string (s : String)
  | boolean (b : Bool)
  | number (n : Float)
  | integer (i : Int)
  | null
  | array (xs : List VertexPropertyType)
  | object (kvs : List (String × VertexPropertyType))
  | ydoc (bytes : List Nat)

/-- `MoveVertex` operation from `types/mod.rs`. -/
structure MoveVertex where
  id : OpId
  target_id : String
  parent_id : Option String
  timestamp : Nat

/-- `SetVertexProperty` operation from `types/mod.rs`. -/
structure SetVertexProperty where
  id : OpId
  target_id : String
  key : String
  value : VertexPropertyType
  transient : Bool

/-- `ModifyVertexProperty` operation from `types/mod.rs`. -/
structure ModifyVertexProperty where
  id : OpId
  target_id : String
  key : String
  update : List Nat

/-- The `VertexOperation` sum type from `types/mod.rs`. -/
inductive VertexOperation where
  | move (op : MoveVertex)
  | setProperty (op : SetVertexProperty)
  | modifyProperty (op : ModifyVertexProperty)

/-- Materialized vertex record `EncodedVertex` from `types/mod.rs`;
`properties` is the `HashMap<String, VertexPropertyType>` as an
association list. -/
structure EncodedVertex where
  id : String
  parent_id : Option String
  idx : Int
  properties : List (String × VertexPropertyType)

/-- State-vector `Range` from `types/mod.rs` (`start`/`end` inclusive);
the Rust field `end` is a Lean keyword and is rendered `stop`. -/
structure Range where
  peer_id : String
  start : Nat
  stop : Nat
deriving DecidableEq, Repr

/-- The error enum `Error` from `types/mod.rs`. -/
inductive RTError where
  | vertexNotFound (id : String)
  | storage (cause : String)
  | invalidOperation (reason : String)
  | serialization (cause : String)
deriving DecidableEq, Repr

/-! ## State vector (`crdt/state_vector.rs`) -/

/-- `StateVector` from `state_vector.rs`: the `HashMap<String, Vec<Range>>`
as an association list from peer id to its range list. -/
structure StateVector where
  ranges : List (String × List Range)
deriving DecidableEq, Repr

/-- Lookup of a peer's entry, the model of `HashMap::get`. -/
def StateVector.get (sv : StateVector) (p : String) : Option (List Range) :=
  (sv.ranges.find? (fun e => e.1 == p)).map (fun e => e.2)

/-- One step of the extension loop in `StateVector::add`: walk the range
list and, at the first range that the counter extends at its end, extends
at its start, or already lies inside, stop (returning the updated list);
`none` means no range matched (`extended == false`). -/
def extendRanges (c : Nat) : List Range → Option (List Range)
  | [] => none
  | r :: rs =>
    if r.stop + 1 = c then some ({ r with stop := c } :: rs)
    else if c + 1 = r.start then some ({ r with start := c } :: rs)
    else if r.start ≤ c ∧ c ≤ r.stop then some (r :: rs)
    else (extendRanges c rs).map (fun rs2 => r :: rs2)

/-- Stable insertion of a range into a list sorted by `start`
(the model of `Vec::sort_by_key(|r| r.start)`, which is a stable sort). -/
def insertByStart (a : Range) : List Range → List Range
  | [] => [a]
  | b :: bs => if a.start ≤ b.start then a :: b :: bs else b :: insertByStart a bs

/-- Stable sort by `start`, the model of `sort_by_key` in
`StateVector::normalize_ranges`. -/
def sortByStart : List Range → List Range
  | [] => []
  | a :: xs => insertByStart a (sortByStart xs)

/-- The merge loop of `StateVector::normalize_ranges`: `cur` is
`ranges[i]`; if the next range starts at or before `cur.stop + 1` the two
are merged in place (keeping `cur.start`, taking the max `stop`, stamping
the peer id), otherwise `cur` is emitted and the scan moves on. -/
def mergeLoop (p : String) (cur : Range) : List Range → List Range
  | [] => [cur]
  | r :: rs =>
    if r.start ≤ cur.stop + 1 then
      mergeLoop p ⟨p, cur.start, max cur.stop r.stop⟩ rs
    else
      cur :: mergeLoop p r rs

/-- `StateVector::normalize_ranges`: sort by `start`, then merge
overlapping or adjacent ranges. -/
def normalizeRanges (p : String) (l : List Range) : List Range :=
  match sortByStart l with
  | [] => []
  | r :: rs => mergeLoop p r rs

/-- The per-peer body of `StateVector::add`: try to extend an existing
range, otherwise push a fresh singleton range, then normalize. -/
def addRanges (p : String) (rs : List Range) (c : Nat) : List Range :=
  normalizeRanges p
    (match extendRanges c rs with
     | some l => l
     | none => rs ++ [⟨p, c, c⟩])

/-- Replace the value of the first entry with the given key (the model of
in-place mutation through `HashMap::entry` when the key is present). -/
def updateEntry : List (String × List Range) → String → List Range →
    List (String × List Range)
  | [], _, _ => []
  | e :: es, p, v => if e.1 == p then (e.1, v) :: es else e :: updateEntry es p v

/-- `StateVector::add`: materialize the peer's entry
(`entry(..).or_insert_with(Vec::new)`) and run the extend-or-push loop
followed by `normalize_ranges`. -/
def StateVector.add (sv : StateVector) (p : String) (c : Nat) : StateVector :=
  match sv.get p with
  | some rs => ⟨updateEntry sv.ranges p (addRanges p rs c)⟩
  | none => ⟨sv.ranges ++ [(p, addRanges p [] c)]⟩

/-- Subtraction of one of `other`'s ranges from every range in `remaining`,
the inner loop of `StateVector::diff`: ranges entirely before or after
`t` are kept, overlapping ranges are split into the part before `t.start`
and the part after `t.stop`. -/
def subtractRange (p : String) (t : Range) : List Range → List Range
  | [] => []
  | r :: rest =>
    if r.stop < t.start then r :: subtractRange p t rest
    else if t.stop < r.start then r :: subtractRange p t rest
    else
      (if r.start < t.start then [⟨p, r.start, t.start - 1⟩] else []) ++
      (if r.stop > t.stop then [⟨p, t.stop + 1, r.stop⟩] else []) ++
      subtractRange p t rest

/-- Folding `subtractRange` over all of the other peer's ranges, the
`for their_range in their_ranges` loop of `StateVector::diff`. -/
def subtractAll (p : String) (rem : List Range) (ts : List Range) : List Range :=
  ts.foldl (fun acc t => subtractRange p t acc) rem

/-- `StateVector::diff`: for each of our entries and each of its ranges,
subtract every range the other side holds for that peer (an absent peer
subtracts nothing) and emit what remains, in iteration order. -/
def StateVector.diff (a b : StateVector) : List Range :=
  a.ranges.flatMap (fun e =>
    e.2.flatMap (fun r => subtractAll e.1 [r] ((b.get e.1).getD [])))

/-- Decidable range membership: `start ≤ c ≤ stop`. -/
def rangeCovers (r : Range) (c : Nat) : Bool :=
  decide (r.start ≤ c) && decide (c ≤ r.stop)

/-- A counter is covered by a list of ranges when some range contains it. -/
def coversList (rs : List Range) (c : Nat) : Bool :=
  rs.any (fun r => rangeCovers r c)

/-- A state vector covers `(p, c)` when the entry stored for `p` has a
range containing `c`. -/
def StateVector.covers (sv : StateVector) (p : String) (c : Nat) : Bool :=
  match sv.get p with
  | some rs => coversList rs c
  | none => false

/-! ## Storage model (`storage/sqlite.rs`) -/

/-- Point lookup in the `rt_vertices` table (`SELECT .. WHERE id = ?`). -/
def findStore (store : List EncodedVertex) (id : String) : Option EncodedVertex :=
  store.find? (fun v => v.id == id)

/-- `put_vertex` (`INSERT OR REPLACE`): SQLite's REPLACE deletes any row
with the same primary key and inserts the new row with a fresh rowid,
i.e. at the end. -/
def putVertex (store : List EncodedVertex) (v : EncodedVertex) : List EncodedVertex :=
  (store.filter (fun w => w.id != v.id)) ++ [v]

/-- Stable insertion of a vertex into a list sorted by `idx`. -/
def insertByIdx (a : EncodedVertex) : List EncodedVertex → List EncodedVertex
  | [] => [a]
  | b :: bs => if a.idx ≤ b.idx then a :: b :: bs else b :: insertByIdx a bs

/-- Stable sort of vertices by `idx` (the model both of SQL
`ORDER BY idx`, whose ties come out in rowid order via the
`(parent_id, idx)` index, and of the stable `sort_by_key` in
`RepTree::get_children`). -/
def sortByIdx : List EncodedVertex → List EncodedVertex
  | [] => []
  | a :: xs => insertByIdx a (sortByIdx xs)

/-- `get_children_page`: the rows with `parent_id = ?` (SQL `=` never
matches a NULL parent) and, when given, `idx > after`, ordered by `idx`
and capped by `limit`; returns `(id, idx)` pairs. -/
def getChildrenPage (store : List EncodedVertex) (parent : String)
    (after : Option Int) (limit : Nat) : List (String × Int) :=
  let kids := store.filter (fun v =>
    v.parent_id == some parent &&
      (match after with
       | some a => decide (a < v.idx)
       | none => true))
  ((sortByIdx kids).take limit).map (fun v => (v.id, v.idx))

/-- `scan_range` over the move log with a peer filter and an inclusive
`seq` span, in `seq` order: the `seq` of a log entry is its position + 1
(SQLite AUTOINCREMENT). Note the SQL filters compare the *sequence
number*, not the OpId counter. -/
def scanMoveRange (log : List MoveVertex) (peer : String)
    (fromSeq toSeq : Nat) : List MoveVertex :=
  (log.enum.filter (fun e =>
    e.2.id.peer_id == peer && decide (fromSeq ≤ e.1 + 1) && decide (e.1 + 1 ≤ toSeq))).map
    (fun e => e.2)

/-- `scan_range` over the property log, same shape as the move-log scan. -/
def scanPropRange (log : List SetVertexProperty) (peer : String)
    (fromSeq toSeq : Nat) : List SetVertexProperty :=
  (log.enum.filter (fun e =>
    e.2.id.peer_id == peer && decide (fromSeq ≤ e.1 + 1) && decide (e.1 + 1 ≤ toSeq))).map
    (fun e => e.2)

/-! ## Replica engine (`crdt/mod.rs`) -/

/-- The vertex cache content: `LruCache<VertexId, EncodedVertex>` keyed by
vertex id. -/
abbrev VertexCache := List (String × EncodedVertex)

/-- Cache lookup (`LruCache::get`). -/
def lookupCache (cache : VertexCache) (id : String) : Option EncodedVertex :=
  (cache.find? (fun e => e.1 == id)).map (fun e => e.2)

/-- Cache insertion (`LruCache::put`), replacing any entry with the same
key. -/
def putCache (cache : VertexCache) (id : String) (v : EncodedVertex) : VertexCache :=
  match cache with
  | [] => [(id, v)]
  | e :: es => if e.1 == id then (id, v) :: es else e :: putCache es id v

/-- `RepTree::get_vertex` against explicit cache and store: consult the
cache, fall back to the store, and populate the cache on a store hit;
returns the result together with the cache as left behind. -/
def getVertexC (cache : VertexCache) (store : List EncodedVertex)
    (id : String) : Option EncodedVertex × VertexCache :=
  match lookupCache cache id with
  | some v => (some v, cache)
  | none =>
    match findStore store id with
    | some v => (some v, putCache cache id v)
    | none => (none, cache)

/-- The replica engine state: the fields of `struct RepTree` plus the
tables of its SQLite storage. -/
structure RepTree where
  peer_id : String
  lamport_clock : Nat
  store : List EncodedVertex
  move_log : List MoveVertex
  prop_log : List SetVertexProperty
  cache : VertexCache
  state_vector : StateVector

/-- `RepTree::update_lamport_clock`. -/
def updateLamportClock (s : RepTree) (timestamp : Nat) : RepTree :=
  { s with lamport_clock := max s.lamport_clock timestamp + 1 }

/-- `RepTree::new_op_id`: hand out the current clock value and bump it. -/
def newOpId (s : RepTree) : OpId × RepTree :=
  (⟨s.peer_id, s.lamport_clock⟩, { s with lamport_clock := s.lamport_clock + 1 })

/-- `RepTree::get_vertex` on the engine state. -/
def getVertex (s : RepTree) (id : String) : Option EncodedVertex × RepTree :=
  ((getVertexC s.cache s.store id).1,
    { s with cache := (getVertexC s.cache s.store id).2 })

/-- Insert-or-replace into a vertex's property map
(`HashMap::insert`). -/
def insertProp (props : List (String × VertexPropertyType)) (k : String)
    (v : VertexPropertyType) : List (String × VertexPropertyType) :=
  match props with
  | [] => [(k, v)]
  | e :: es => if e.1 == k then (k, v) :: es else e :: insertProp es k v

/-- The parent-existence check inside `RepTree::apply_move`: a `none`
parent passes, otherwise the parent must resolve through `get_vertex`. -/
def checkParent (s : RepTree) : Option String → Except RTError Unit × RepTree
  | none => (Except.ok (), s)
  | some pid =>
    match (getVertex s pid).1 with
    | some _ => (Except.ok (), (getVertex s pid).2)
    | none => (Except.error (RTError.vertexNotFound pid), (getVertex s pid).2)

/-- The semantics of Rust's `iter().max().unwrap_or(0)` over sibling
indices. -/
def maxIdx : List Int → Int
  | [] => 0
  | x :: xs => xs.foldl max x

/-- The sibling list consulted by `apply_move` when reparenting: one
`get_children_page` of the new parent (limit 1000), or the empty list for
a `none` parent. -/
def siblingIdxs (store : List EncodedVertex) : Option String → List Int
  | some pid => (getChildrenPage store pid none 1000).map (fun e => e.2)
  | none => []

/-- The record written for an existing target in `apply_move`: parent
replaced, `idx` one past the max sibling index. -/
def movedVertex (store : List EncodedVertex) (op : MoveVertex)
    (v : EncodedVertex) : EncodedVertex :=
  { v with parent_id := op.parent_id,
           idx := maxIdx (siblingIdxs store op.parent_id) + 1 }

/-- The tail of `apply_move` once the target lookup has resolved but the
vertex turned out to exist: re-read it and write the reparented record. -/
def applyMoveExisting (res : Option EncodedVertex) (s3 : RepTree)
    (op : MoveVertex) : Except RTError Unit × RepTree :=
  match res with
  | none => (Except.error (RTError.vertexNotFound op.target_id), s3)
  | some v =>
    (Except.ok (),
      { s3 with
        store := putVertex s3.store (movedVertex s3.store op v),
        cache := putCache s3.cache op.target_id (movedVertex s3.store op v) })

/-- The tail of `apply_move` after the target read and the parent check:
propagate a parent error, create a missing target with `idx = 0`, or fall
through to the existing-target path. -/
def applyMoveWithParent (targetRes : Option EncodedVertex)
    (pc : Except RTError Unit) (s2 : RepTree) (op : MoveVertex) :
    Except RTError Unit × RepTree :=
  match pc with
  | Except.error e => (Except.error e, s2)
  | Except.ok _ =>
    match targetRes with
    | none =>
      (Except.ok (),
        { s2 with
          store := putVertex s2.store ⟨op.target_id, op.parent_id, 0, []⟩,
          cache := putCache s2.cache op.target_id ⟨op.target_id, op.parent_id, 0, []⟩ })
    | some _ =>
      applyMoveExisting (getVertex s2 op.target_id).1 (getVertex s2 op.target_id).2 op

/-- `RepTree::apply_move`: check the target, reject a dangling parent with
`VertexNotFound`, create a missing target with `idx = 0`, or reparent an
existing target to one past the max sibling index; write through store
and cache. -/
def applyMove (s : RepTree) (op : MoveVertex) : Except RTError Unit × RepTree :=
  applyMoveWithParent (getVertex s op.target_id).1
    (checkParent (getVertex s op.target_id).2 op.parent_id).1
    (checkParent (getVertex s op.target_id).2 op.parent_id).2 op

/-- The record written by a persistent `apply_property`. -/
def withProp (v : EncodedVertex) (k : String) (val : VertexPropertyType) :
    EncodedVertex :=
  { v with properties := insertProp v.properties k val }

/-- The body of `apply_property` after the target read. -/
def applyPropertyWith (res : Option EncodedVertex) (s1 : RepTree)
    (op : SetVertexProperty) : Except RTError Unit × RepTree :=
  match res with
  | none => (Except.error (RTError.vertexNotFound op.target_id), s1)
  | some v =>
    if op.transient then (Except.ok (), s1)
    else
      (Except.ok (),
        { s1 with
          store := putVertex s1.store (withProp v op.key op.value),
          cache := putCache s1.cache op.target_id (withProp v op.key op.value) })

/-- `RepTree::apply_property`: missing target is `VertexNotFound`; a
transient op returns success having touched nothing beyond the
`get_vertex` read; otherwise overwrite the property and write through
store and cache. -/
def applyProperty (s : RepTree) (op : SetVertexProperty) :
    Except RTError Unit × RepTree :=
  applyPropertyWith (getVertex s op.target_id).1 (getVertex s op.target_id).2 op

/-- On success of `apply_move`, append to the move log and record the
OpId in the state vector (the tail of the Move arm of `apply_op`). -/
def finishMove (m : MoveVertex) (res : Except RTError Unit) (s2 : RepTree) :
    Except RTError OpId × RepTree :=
  match res with
  | Except.error e => (Except.error e, s2)
  | Except.ok _ =>
    (Except.ok m.id,
      { s2 with
        move_log := s2.move_log ++ [m],
        state_vector := s2.state_vector.add m.id.peer_id m.id.counter })

/-- On success of `apply_property`, append to the prop log and record in
the state vector (the shared tail of the SetProperty and ModifyProperty
arms of `apply_op`). -/
def finishProp (p : SetVertexProperty) (res : Except RTError Unit) (s1 : RepTree) :
    Except RTError OpId × RepTree :=
  match res with
  | Except.error e => (Except.error e, s1)
  | Except.ok _ =>
    (Except.ok p.id,
      { s1 with
        prop_log := s1.prop_log ++ [p],
        state_vector := s1.state_vector.add p.id.peer_id p.id.counter })

/-- The SetProperty projection of a ModifyProperty op: the update bytes
become a non-transient `YDoc` value. -/
def projectModify (m : ModifyVertexProperty) : SetVertexProperty :=
  ⟨m.id, m.target_id, m.key, VertexPropertyType.ydoc m.update, false⟩

/-- `RepTree::apply_op`: a Move first advances the Lamport clock and on
success is appended to the move log and recorded in the state vector; a
SetProperty (transient ones included) is appended to the prop log and
recorded in the state vector on success; a ModifyProperty is projected
onto a non-transient SetProperty carrying the update bytes. -/
def applyOp (s : RepTree) (op : VertexOperation) : Except RTError OpId × RepTree :=
  match op with
  | VertexOperation.move m =>
    finishMove m (applyMove (updateLamportClock s m.timestamp) m).1
      (applyMove (updateLamportClock s m.timestamp) m).2
  | VertexOperation.setProperty p =>
    finishProp p (applyProperty s p).1 (applyProperty s p).2
  | VertexOperation.modifyProperty m =>
    finishProp (projectModify m) (applyProperty s (projectModify m)).1
      (applyProperty s (projectModify m)).2

/-- `RepTree::apply_ops`: apply in order, stopping at the first error. -/
def applyOps (s : RepTree) : List VertexOperation →
    Except RTError (List OpId) × RepTree
  | [] => (Except.ok [], s)
  | op :: rest =>
    match (applyOp s op).1 with
    | Except.ok id =>
      match (applyOps (applyOp s op).2 rest).1 with
      | Except.ok ids => (Except.ok (id :: ids), (applyOps (applyOp s op).2 rest).2)
      | Except.error e => (Except.error e, (applyOps (applyOp s op).2 rest).2)
    | Except.error e => (Except.error e, (applyOp s op).2)

/-- The hydration loop of `RepTree::get_children`: look up each paged id
via `get_vertex` (threading the cache), skipping ids that resolve to
nothing. -/
def hydrate (store : List EncodedVertex) (cache : VertexCache) :
    List (String × Int) → List EncodedVertex × VertexCache
  | [] => ([], cache)
  | pr :: rest =>
    match (getVertexC cache store pr.1).1 with
    | some v =>
      (v :: (hydrate store (getVertexC cache store pr.1).2 rest).1,
        (hydrate store (getVertexC cache store pr.1).2 rest).2)
    | none => hydrate store (getVertexC cache store pr.1).2 rest

/-- `RepTree::get_children`: one `get_children_page` with limit 1000,
hydrate each `(id, idx)` pair, then sort the result by `idx`. -/
def getChildren (s : RepTree) (parent : String) :
    List EncodedVertex × VertexCache :=
  (sortByIdx (hydrate s.store s.cache (getChildrenPage s.store parent none 1000)).1,
    (hydrate s.store s.cache (getChildrenPage s.store parent none 1000)).2)

/-- Stable insertion for the OpId sort of `get_missing_ops`
(`sort_by` with `OpId::compare` is a stable sort). -/
def opIdOf : VertexOperation → OpId
  | VertexOperation.move op => op.id
  | VertexOperation.setProperty op => op.id
  | VertexOperation.modifyProperty op => op.id

/-- Insert an operation before the first list element it does not compare
greater than, the behaviour of a stable comparator sort. -/
def insertByOpId (a : VertexOperation) : List VertexOperation → List VertexOperation
  | [] => [a]
  | b :: bs =>
    if OpId.compare (opIdOf a) (opIdOf b) = Ordering.gt then b :: insertByOpId a bs
    else a :: b :: bs

/-- Stable sort by `OpId::compare`. -/
def sortByOpId : List VertexOperation → List VertexOperation
  | [] => []
  | a :: xs => insertByOpId a (sortByOpId xs)

/-- `RepTree::get_missing_ops`: diff the state vectors, then for each
resulting range scan both logs for that peer with the range's counter
bounds passed as the scan's `seq` bounds (exactly as the code does), and
finally sort everything by `OpId::compare`. -/
def getMissingOps (s : RepTree) (their : StateVector) : List VertexOperation :=
  let missingRanges := s.state_vector.diff their
  let ops := missingRanges.flatMap (fun r =>
    (scanMoveRange s.move_log r.peer_id r.start r.stop).map VertexOperation.move ++
    (scanPropRange s.prop_log r.peer_id r.start r.stop).map VertexOperation.setProperty)
  sortByOpId ops

/-- A freshly constructed replica (`RepTree::new` over an empty backend). -/
def freshReplica (p : String) : RepTree :=
  ⟨p, 0, [], [], [], [], ⟨[]⟩⟩

/-! ## Auxiliary predicates -/

/-- Range normal form: sorted by `start` ascending and every consecutive
pair separated by a gap (`r1.stop + 1 < r2.start`). -/
def normalForm : List Range → Bool
  | [] => true
  | [_] => true
  | r1 :: r2 :: rs =>
    decide (r1.start ≤ r2.start) && decide (r1.stop + 1 < r2.start) &&
      normalForm (r2 :: rs)

/-- The list of ranges is sorted by `start` (non-strictly). -/
def sortedByStart : List Range → Bool
  | [] => true
  | [_] => true
  | r1 :: r2 :: rs => decide (r1.start ≤ r2.start) && sortedByStart (r2 :: rs)

/-- The vertex list has strictly ascending `idx` values. -/
def idxStrictlyAscending : List EncodedVertex → Bool
  | [] => true
  | [_] => true
  | a :: b :: rest => decide (a.idx < b.idx) && idxStrictlyAscending (b :: rest)

/-- The vertex list has non-decreasing `idx` values. -/
def idxSortedLe : List EncodedVertex → Bool
  | [] => true
  | [_] => true
  | a :: b :: rest => decide (a.idx ≤ b.idx) && idxSortedLe (b :: rest)

/-- The peer keys of a state-vector entry list are pairwise distinct
(the `HashMap` key invariant). -/
def KeysNodup (l : List (String × List Range)) : Prop :=
  (l.map Prod.fst).Nodup

/-- Every range stored under a peer carries that peer in its `peer_id`
field, as every range built by `add` and `normalize_ranges` does. -/
def InnerPeersOk (l : List (String × List Range)) : Prop :=
  ∀ e ∈ l, ∀ r ∈ e.2, r.peer_id = e.1

/-- Every cached entry agrees with the store (the cache is a coherent
mirror, which holds for every replica whose cache was populated by the
engine's own reads and write-throughs). -/
def CacheCoherent (cache : VertexCache) (store : List EncodedVertex) : Prop :=
  ∀ e ∈ cache, findStore store e.1 = some e.2

/-- The store's vertex ids are pairwise distinct (`id` is the primary key
of `rt_vertices`). -/
def StoreKeysNodup (store : List EncodedVertex) : Prop :=
  (store.map (fun v => v.id)).Nodup

/-! ## Concrete scenario states (spec §8, S1/S2/S4/S5) -/

/-- S1 first op: `Move(id=(p1,1), target="root", parent=∅, ts=1000)`. -/
def opMoveRoot : MoveVertex := ⟨⟨"p1", 1⟩, "root", none, 1000⟩

/-- S1 second op: `SetProperty(id=(p1,2), "root", "name", String("Root"))`. -/
def opSetName : SetVertexProperty :=
  ⟨⟨"p1", 2⟩, "root", "name", VertexPropertyType.string "Root", false⟩

/-- S2: `Move(id=(p1,3), target="c1", parent="root", ts=2000)`. -/
def opMoveC1 : MoveVertex := ⟨⟨"p1", 3⟩, "c1", some "root", 2000⟩

/-- S2: `Move(id=(p1,4), target="c2", parent="root", ts=2001)`. -/
def opMoveC2 : MoveVertex := ⟨⟨"p1", 4⟩, "c2", some "root", 2001⟩

/-- The replica after S1's first op (root created). -/
def scenarioS1 : RepTree :=
  (applyOps (freshReplica "p1") [VertexOperation.move opMoveRoot]).2

/-- The replica after the full S2 sequence (root, name, c1, c2). -/
def scenarioS2 : RepTree :=
  (applyOps (freshReplica "p1")
    [VertexOperation.move opMoveRoot, VertexOperation.setProperty opSetName,
     VertexOperation.move opMoveC1, VertexOperation.move opMoveC2]).2

/-- A transient property op aimed at the existing root vertex. -/
def opTransient : SetVertexProperty :=
  ⟨⟨"p1", 2⟩, "root", "cursor", VertexPropertyType.string "here", true⟩

/-- S4's move against a missing parent. -/
def s4Move : MoveVertex := ⟨⟨"p1", 1⟩, "x", some "nope", 1⟩

/-- A store holding only the vertex `x`, next to an empty cache: the
situation of a replica freshly reopened over existing storage. -/
def cexStore : List EncodedVertex := [⟨"x", none, 0, []⟩]

/-- Replica with `x` persisted but an empty (fresh) cache. -/
def cexState : RepTree := ⟨"p1", 0, cexStore, [], [], [], ⟨[]⟩⟩

/-- A move of the existing `x` under the nonexistent parent `nope`. -/
def cexMove : MoveVertex := ⟨⟨"p1", 1⟩, "x", some "nope", 1⟩

/-- Replica that applied `(p1,5)` and `(p1,6)` (counters far from the log
sequence numbers 1 and 2). -/
def opMoveA : MoveVertex := ⟨⟨"p1", 5⟩, "a", none, 5⟩

/-- Second op of the sync scenario. -/
def opMoveB : MoveVertex := ⟨⟨"p1", 6⟩, "b", none, 6⟩

/-- The replica for the sync scenario of C2. -/
def syncReplica : RepTree :=
  (applyOps (freshReplica "p1")
    [VertexOperation.move opMoveA, VertexOperation.move opMoveB]).2

/-- S5's state vector for peer `p1`: counters {1,2,3,5} of p1 and
{10,11} of p2. -/
def svA5 : StateVector :=
  ⟨[("p1", [⟨"p1", 1, 3⟩, ⟨"p1", 5, 5⟩]), ("p2", [⟨"p2", 10, 11⟩])]⟩

/-- S5's state vector for peer `p2`: counters {1,2} of p1 and {10,11} of
p2. -/
def svB5 : StateVector :=
  ⟨[("p1", [⟨"p1", 1, 2⟩]), ("p2", [⟨"p2", 10, 11⟩])]⟩


/-- Fold a sequence of `(peer, counter)` points into a state vector via
`StateVector::add`. -/
def applyAdds (sv : StateVector) : List (String × Nat) → StateVector
  | [] => sv
  | pc :: rest => applyAdds (sv.add pc.1 pc.2) rest

/-! ## Frame lemmas for the engine -/

theorem getVertex_frame (s : RepTree) (id : String) :
    (getVertex s id).2 = { s with cache := (getVertexC s.cache s.store id).2 } := rfl

theorem checkParent_frame (s : RepTree) (po : Option String) :
    ((checkParent s po).2).lamport_clock = s.lamport_clock ∧
    ((checkParent s po).2).store = s.store ∧
    ((checkParent s po).2).move_log = s.move_log ∧
    ((checkParent s po).2).prop_log = s.prop_log ∧
    ((checkParent s po).2).state_vector = s.state_vector := by
  cases po with
  | none => exact ⟨rfl, rfl, rfl, rfl, rfl⟩
  | some pid =>
    cases h : (getVertex s pid).1 <;> simp [checkParent, h] <;>
      exact ⟨rfl, rfl, rfl, rfl, rfl⟩

theorem applyMove_frame (s : RepTree) (m : MoveVertex) :
    ((applyMove s m).2).lamport_clock = s.lamport_clock ∧
    ((applyMove s m).2).move_log = s.move_log ∧
    ((applyMove s m).2).prop_log = s.prop_log ∧
    ((applyMove s m).2).state_vector = s.state_vector := by
  unfold applyMove applyMoveWithParent
  simp only [getVertex_frame]
  generalize hX :
    ({ s with cache := (getVertexC s.cache s.store m.target_id).2 } : RepTree) = X
  have hx1 : X.lamport_clock = s.lamport_clock := by rw [← hX]
  have hx2 : X.move_log = s.move_log := by rw [← hX]
  have hx3 : X.prop_log = s.prop_log := by rw [← hX]
  have hx4 : X.state_vector = s.state_vector := by rw [← hX]
  obtain ⟨h1, h2, h3, h4, h5⟩ := checkParent_frame X m.parent_id
  generalize hY : (checkParent X m.parent_id).2 = Y at h1 h2 h3 h4 h5 ⊢
  cases hpc : (checkParent X m.parent_id).1 with
  | error e => simp [hpc, h1, h3, h4, h5, hx1, hx2, hx3, hx4]
  | ok u =>
    cases htr : (getVertex s m.target_id).1 with
    | none => simp [hpc, htr, h1, h3, h4, h5, hx1, hx2, hx3, hx4]
    | some v =>
      simp only [hpc, htr, applyMoveExisting, getVertex_frame]
      cases hgv : (getVertex Y m.target_id).1 <;>
        simp [hgv, getVertex_frame, h1, h3, h4, h5, hx1, hx2, hx3, hx4]

theorem applyProperty_frame (s : RepTree) (p : SetVertexProperty) :
    ((applyProperty s p).2).lamport_clock = s.lamport_clock ∧
    ((applyProperty s p).2).move_log = s.move_log ∧
    ((applyProperty s p).2).prop_log = s.prop_log ∧
    ((applyProperty s p).2).state_vector = s.state_vector := by
  unfold applyProperty applyPropertyWith
  cases h : (getVertex s p.target_id).1 with
  | none => simp [h, getVertex_frame]
  | some v => cases htr : p.transient <;> simp [h, htr, getVertex_frame]

/-! ## Claim theorems -/

/-- C9: applying a Move operation with origin timestamp T through
`apply_op` leaves the Lamport clock at `max(previous, T) + 1`, on the
success path and on every rejection path alike. -/
theorem c9_move_advances_lamport (s : RepTree) (m : MoveVertex) :
    ((applyOp s (VertexOperation.move m)).2).lamport_clock =
      max s.lamport_clock m.timestamp + 1 := by
  have h := (applyMove_frame (updateLamportClock s m.timestamp) m).1
  unfold applyOp finishMove
  cases hres : (applyMove (updateLamportClock s m.timestamp) m).1 <;>
    simp [hres, h] <;> simp [updateLamportClock]

/-- C10: applying a SetProperty or a ModifyProperty operation through
`apply_op` never changes the Lamport clock, so a subsequent locally
allocated OpId still draws its counter from the unadvanced clock. -/
theorem c10_property_ops_leave_lamport (s : RepTree) (p : SetVertexProperty)
    (m : ModifyVertexProperty) :
    ((applyOp s (VertexOperation.setProperty p)).2).lamport_clock = s.lamport_clock ∧
    ((applyOp s (VertexOperation.modifyProperty m)).2).lamport_clock = s.lamport_clock ∧
    (newOpId ((applyOp s (VertexOperation.setProperty p)).2)).1.counter =
      s.lamport_clock := by
  have h1 := (applyProperty_frame s p).1
  have h2 := (applyProperty_frame s (projectModify m)).1
  unfold applyOp finishProp newOpId
  refine ⟨?_, ?_, ?_⟩
  · cases hres : (applyProperty s p).1 <;> simp [hres, h1]
  · cases hres : (applyProperty s (projectModify m)).1 <;> simp [hres, h2]
  · cases hres : (applyProperty s p).1 <;> simp [hres, h1]

theorem getVertex_fst (s : RepTree) (id : String) :
    (getVertex s id).1 = (getVertexC s.cache s.store id).1 := rfl

theorem lookupCache_putCache_ne (c : VertexCache) (id id' : String)
    (v : EncodedVertex) (h : (id' == id) = false) :
    lookupCache (putCache c id' v) id = lookupCache c id := by
  induction c with
  | nil => simp [putCache, lookupCache, List.find?, h]
  | cons e es ih =>
    cases he : (e.1 == id') with
    | true =>
      have he1 : e.1 = id' := by simpa using he
      simp [putCache, he, lookupCache, List.find?, h, he1]
    | false =>
      simp only [putCache, he, Bool.false_eq_true, if_false]
      simp only [lookupCache, List.find?] at ih ⊢
      cases hf : (e.1 == id) <;> simp_all

/-- C1 (amended): a transient SetProperty on an existing target returns
success and leaves the store untouched and the cache changed only as the
`get_vertex` read of the target changes it, but it does append the op to
the PropLog and records its OpId in the state vector. -/
theorem c1_transient_setproperty_effects (s : RepTree) (op : SetVertexProperty)
    (htr : op.transient = true)
    (hex : (getVertexC s.cache s.store op.target_id).1.isSome = true) :
    (applyOp s (VertexOperation.setProperty op)).1 = Except.ok op.id ∧
    ((applyOp s (VertexOperation.setProperty op)).2).store = s.store ∧
    ((applyOp s (VertexOperation.setProperty op)).2).cache =
      (getVertexC s.cache s.store op.target_id).2 ∧
    ((applyOp s (VertexOperation.setProperty op)).2).move_log = s.move_log ∧
    ((applyOp s (VertexOperation.setProperty op)).2).prop_log = s.prop_log ++ [op] ∧
    ((applyOp s (VertexOperation.setProperty op)).2).state_vector =
      s.state_vector.add op.id.peer_id op.id.counter := by
  unfold applyOp finishProp applyProperty applyPropertyWith getVertex
  cases hv : (getVertexC s.cache s.store op.target_id).1 with
  | none => rw [hv] at hex; simp at hex
  | some v => simp [hv, htr]

/-- C3 (amended): a Move whose parent id is set but resolves to no vertex
fails with `VertexNotFound(parent)` and appends nothing to either log,
leaves the state vector and the store unchanged, and changes the cache
only as the `get_vertex` read of the move's target changes it. -/
theorem c3_move_missing_parent_rejected (s : RepTree) (m : MoveVertex) (pid : String)
    (hp : m.parent_id = some pid)
    (hc : lookupCache s.cache pid = none)
    (hs : findStore s.store pid = none) :
    (applyOp s (VertexOperation.move m)).1 =
      Except.error (RTError.vertexNotFound pid) ∧
    ((applyOp s (VertexOperation.move m)).2).store = s.store ∧
    ((applyOp s (VertexOperation.move m)).2).move_log = s.move_log ∧
    ((applyOp s (VertexOperation.move m)).2).prop_log = s.prop_log ∧
    ((applyOp s (VertexOperation.move m)).2).state_vector = s.state_vector ∧
    ((applyOp s (VertexOperation.move m)).2).cache =
      (getVertexC s.cache s.store m.target_id).2 := by
  have hpar : ∀ C : VertexCache, lookupCache C pid = none →
      getVertexC C s.store pid = (none, C) := by
    intro C hC
    simp [getVertexC, hC, hs]
  have hc2 : lookupCache (getVertexC s.cache s.store m.target_id).2 pid = none := by
    unfold getVertexC
    cases hl : lookupCache s.cache m.target_id with
    | some v => simpa [hl] using hc
    | none =>
      cases hf : findStore s.store m.target_id with
      | some v =>
        have hne : (m.target_id == pid) = false := by
          cases htp : (m.target_id == pid) with
          | false => rfl
          | true =>
            exfalso
            have heq : m.target_id = pid := by simpa using htp
            rw [heq] at hf
            rw [hf] at hs
            cases hs
        simp only [hl, hf]
        rw [lookupCache_putCache_ne _ _ _ _ hne]
        exact hc
      | none => simpa [hl, hf] using hc
  unfold applyOp finishMove applyMove applyMoveWithParent
  dsimp only
  rw [hp]
  simp only [getVertex_frame, getVertex_fst, checkParent, updateLamportClock]
  simp [hpar _ hc2]

/-- C1 (counterexample): on the replica that holds only the root vertex, a
transient SetProperty aimed at the root succeeds yet grows the PropLog and
moves the state vector, contradicting the claim that both stay unchanged. -/
theorem c1_cex_transient_mutates_log_and_sv :
    opTransient.transient = true ∧
    (getVertexC scenarioS1.cache scenarioS1.store opTransient.target_id).1.isSome = true ∧
    (applyOp scenarioS1 (VertexOperation.setProperty opTransient)).1 =
      Except.ok opTransient.id ∧
    ((applyOp scenarioS1 (VertexOperation.setProperty opTransient)).2).prop_log.length = 1 ∧
    scenarioS1.prop_log.length = 0 ∧
    ((applyOp scenarioS1 (VertexOperation.setProperty opTransient)).2).state_vector ≠
      scenarioS1.state_vector := by
  refine ⟨rfl, rfl, rfl, rfl, rfl, ?_⟩
  decide

/-- C1 (witness): the amended transient-SetProperty theorem applied to the
replica of scenario S1. -/
theorem c1_transient_setproperty_effects_witness :
    opTransient.transient = true ∧
    (getVertexC scenarioS1.cache scenarioS1.store opTransient.target_id).1.isSome = true ∧
    ((applyOp scenarioS1 (VertexOperation.setProperty opTransient)).1 =
        Except.ok opTransient.id ∧
      ((applyOp scenarioS1 (VertexOperation.setProperty opTransient)).2).store =
        scenarioS1.store ∧
      ((applyOp scenarioS1 (VertexOperation.setProperty opTransient)).2).cache =
        (getVertexC scenarioS1.cache scenarioS1.store opTransient.target_id).2 ∧
      ((applyOp scenarioS1 (VertexOperation.setProperty opTransient)).2).move_log =
        scenarioS1.move_log ∧
      ((applyOp scenarioS1 (VertexOperation.setProperty opTransient)).2).prop_log =
        scenarioS1.prop_log ++ [opTransient] ∧
      ((applyOp scenarioS1 (VertexOperation.setProperty opTransient)).2).state_vector =
        scenarioS1.state_vector.add opTransient.id.peer_id opTransient.id.counter) :=
  ⟨rfl, rfl, c1_transient_setproperty_effects scenarioS1 opTransient rfl rfl⟩

/-- C3 (counterexample): on a replica reopened over a store holding `x`
(so the cache is empty), the rejected move of `x` under the missing
parent `nope` leaves `x` newly cached: the claim's "no cache mutation"
fails. -/
theorem c3_cex_failed_move_populates_cache :
    (applyOp cexState (VertexOperation.move cexMove)).1 =
      Except.error (RTError.vertexNotFound "nope") ∧
    ((applyOp cexState (VertexOperation.move cexMove)).2).cache.length = 1 ∧
    cexState.cache.length = 0 ∧
    ((applyOp cexState (VertexOperation.move cexMove)).2).cache ≠ cexState.cache := by
  refine ⟨rfl, rfl, rfl, ?_⟩
  intro h
  exact absurd (congrArg List.length h) (by decide)

/-- C3 (witness): the amended rejection theorem applied to a fresh
replica and S4's move, which also exhibits the claim's fresh-replica
consequence: empty state vector and empty logs afterwards. -/
theorem c3_move_missing_parent_rejected_witness :
    s4Move.parent_id = some "nope" ∧
    lookupCache (freshReplica "p1").cache "nope" = none ∧
    findStore (freshReplica "p1").store "nope" = none ∧
    ((applyOp (freshReplica "p1") (VertexOperation.move s4Move)).1 =
        Except.error (RTError.vertexNotFound "nope") ∧
      ((applyOp (freshReplica "p1") (VertexOperation.move s4Move)).2).store =
        (freshReplica "p1").store ∧
      ((applyOp (freshReplica "p1") (VertexOperation.move s4Move)).2).move_log =
        (freshReplica "p1").move_log ∧
      ((applyOp (freshReplica "p1") (VertexOperation.move s4Move)).2).prop_log =
        (freshReplica "p1").prop_log ∧
      ((applyOp (freshReplica "p1") (VertexOperation.move s4Move)).2).state_vector =
        (freshReplica "p1").state_vector ∧
      ((applyOp (freshReplica "p1") (VertexOperation.move s4Move)).2).cache =
        (getVertexC (freshReplica "p1").cache (freshReplica "p1").store
          s4Move.target_id).2) ∧
    ((applyOp (freshReplica "p1") (VertexOperation.move s4Move)).2).state_vector = ⟨[]⟩ ∧
    ((applyOp (freshReplica "p1") (VertexOperation.move s4Move)).2).move_log = [] ∧
    ((applyOp (freshReplica "p1") (VertexOperation.move s4Move)).2).prop_log = [] :=
  ⟨rfl, rfl, rfl,
    c3_move_missing_parent_rejected (freshReplica "p1") s4Move "nope" rfl rfl rfl,
    rfl, rfl, rfl⟩

/-- C2 (code bug): the sync replica has applied `(p1,5)` and `(p1,6)`,
both missing from an empty remote snapshot, yet `get_missing_ops` returns
nothing: the log scan filters on the log sequence numbers 1 and 2 with
the counter bounds 5..6. -/
theorem c2_missing_ops_filters_seq_not_counter :
    syncReplica.state_vector.covers "p1" 5 = true ∧
    syncReplica.state_vector.covers "p1" 6 = true ∧
    (StateVector.mk []).covers "p1" 5 = false ∧
    syncReplica.move_log.length = 2 ∧
    getMissingOps syncReplica ⟨[]⟩ = [] :=
  ⟨rfl, rfl, rfl, rfl, rfl⟩

/-- C7 (code bug): after S2's four operations both `c1` and `c2` were
created with sibling index 0 (the creation branch of `apply_move` never
assigns `1 + max sibling idx`), not the claimed 1 and 2. -/
theorem c7_created_children_have_index_zero :
    (getVertexC scenarioS2.cache scenarioS2.store "c1").1 =
      some ⟨"c1", some "root", 0, []⟩ ∧
    (getVertexC scenarioS2.cache scenarioS2.store "c2").1 =
      some ⟨"c2", some "root", 0, []⟩ ∧
    ((getChildren scenarioS2 "root").1).map (fun v => v.idx) = [0, 0] :=
  ⟨rfl, rfl, rfl⟩

/-- C8 (counterexample): `get_children` on S2's replica returns the two
children both carrying `idx = 0`, so the returned order is not strictly
ascending in `idx`. -/
theorem c8_cex_children_not_strictly_ascending :
    ((getChildren scenarioS2 "root").1).length = 2 ∧
    idxStrictlyAscending ((getChildren scenarioS2 "root").1) = false :=
  ⟨rfl, rfl⟩

/-! ## State-vector range lemmas -/

theorem insertByStart_sorted (a : Range) (l : List Range)
    (h : sortedByStart l = true) :
    sortedByStart (insertByStart a l) = true := by
  induction l with
  | nil => simp [insertByStart, sortedByStart]
  | cons b bs ih =>
    by_cases hab : a.start ≤ b.start
    · simp [insertByStart, hab, sortedByStart, h]
    · have hb : b.start ≤ a.start := by omega
      simp only [insertByStart, if_neg hab]
      cases bs with
      | nil => simp [insertByStart, sortedByStart]; omega
      | cons c cs =>
        have htail : sortedByStart (c :: cs) = true := by
          simp [sortedByStart] at h
          exact h.2
        have hbc : b.start ≤ c.start := by
          simp [sortedByStart] at h
          exact h.1
        have ih2 := ih htail
        by_cases hac : a.start ≤ c.start
        · simp [insertByStart, hac, sortedByStart, hb, htail]
        · simp only [insertByStart, if_neg hac] at ih2 ⊢
          simp [sortedByStart, hbc, ih2]

theorem sortByStart_sorted (l : List Range) :
    sortedByStart (sortByStart l) = true := by
  induction l with
  | nil => simp [sortByStart, sortedByStart]
  | cons a xs ih => exact insertByStart_sorted a (sortByStart xs) ih

theorem mergeLoop_head (p : String) (cur : Range) (l : List Range) :
    ∃ m rest, mergeLoop p cur l = m :: rest ∧ m.start = cur.start := by
  induction l generalizing cur with
  | nil => exact ⟨cur, [], rfl, rfl⟩
  | cons r rs ih =>
    by_cases hm : r.start ≤ cur.stop + 1
    · obtain ⟨m, rest, heq, hstart⟩ := ih ⟨p, cur.start, max cur.stop r.stop⟩
      exact ⟨m, rest, by simp [mergeLoop, hm, heq], hstart⟩
    · obtain ⟨m, rest, heq, hstart⟩ := ih r
      exact ⟨cur, mergeLoop p r rs, by simp [mergeLoop, hm], rfl⟩

theorem mergeLoop_nf (p : String) (cur : Range) (l : List Range)
    (h : sortedByStart (cur :: l) = true) :
    normalForm (mergeLoop p cur l) = true := by
  induction l generalizing cur with
  | nil => simp [mergeLoop, normalForm]
  | cons r rs ih =>
    have hcr : cur.start ≤ r.start := by
      simp [sortedByStart] at h
      exact h.1
    have htail : sortedByStart (r :: rs) = true := by
      simp [sortedByStart] at h
      exact h.2
    by_cases hm : r.start ≤ cur.stop + 1
    · have hsorted : sortedByStart (⟨p, cur.start, max cur.stop r.stop⟩ :: rs) = true := by
        cases rs with
        | nil => simp [sortedByStart]
        | cons c cs =>
          have : r.start ≤ c.start ∧ sortedByStart (c :: cs) = true := by
            simp [sortedByStart] at htail
            exact htail
          simp [sortedByStart, this.2]
          omega
      have := ih ⟨p, cur.start, max cur.stop r.stop⟩ hsorted
      simpa [mergeLoop, hm] using this
    · have hgap : cur.stop + 1 < r.start := by omega
      obtain ⟨m, rest, heq, hstart⟩ := mergeLoop_head p r rs
      have hrec := ih r htail
      rw [heq] at hrec
      simp only [mergeLoop, if_neg hm, heq]
      simp [normalForm, hrec]
      omega

theorem normalizeRanges_nf (p : String) (l : List Range) :
    normalForm (normalizeRanges p l) = true := by
  unfold normalizeRanges
  cases hs : sortByStart l with
  | nil => simp [normalForm]
  | cons r rs =>
    have := sortByStart_sorted l
    rw [hs] at this
    exact mergeLoop_nf p r rs this

theorem addRanges_nf (p : String) (rs : List Range) (c : Nat) :
    normalForm (addRanges p rs c) = true := by
  unfold addRanges
  exact normalizeRanges_nf p _

theorem get_updateEntry (l : List (String × List Range)) (q : String)
    (v : List Range) (p : String) (rs : List Range)
    (h : (StateVector.mk (updateEntry l q v)).get p = some rs) :
    rs = v ∨ (StateVector.mk l).get p = some rs := by
  induction l with
  | nil => simp [updateEntry, StateVector.get, List.find?] at h
  | cons e es ih =>
    by_cases heq : (e.1 == q) = true
    · simp only [updateEntry, heq, if_true] at h
      by_cases hep : (e.1 == p) = true
      · simp [StateVector.get, List.find?, hep] at h
        exact Or.inl h.symm
      · simp only [StateVector.get, List.find?] at h ⊢
        rw [Bool.not_eq_true] at hep
        simp only [hep] at h
        simp only [hep]
        exact Or.inr h
    · rw [Bool.not_eq_true] at heq
      simp only [updateEntry, heq, Bool.false_eq_true, if_false] at h
      by_cases hep : (e.1 == p) = true
      · simp [StateVector.get, List.find?, hep] at h ⊢
        exact Or.inr h
      · rw [Bool.not_eq_true] at hep
        simp only [StateVector.get, List.find?, hep] at h ⊢
        exact ih h

theorem get_append_single (l : List (String × List Range)) (q : String)
    (v : List Range) (p : String) (rs : List Range)
    (h : (StateVector.mk (l ++ [(q, v)])).get p = some rs) :
    rs = v ∨ (StateVector.mk l).get p = some rs := by
  induction l with
  | nil =>
    simp [StateVector.get, List.find?] at h ⊢
    by_cases hqp : (q == p) = true
    · simp [hqp] at h
      exact h.symm
    · rw [Bool.not_eq_true] at hqp
      simp [hqp] at h
  | cons e es ih =>
    by_cases hep : (e.1 == p) = true
    · simp [StateVector.get, List.find?, hep] at h ⊢
      exact Or.inr h
    · rw [Bool.not_eq_true] at hep
      simp only [StateVector.get, List.cons_append, List.find?, hep] at h ⊢
      exact ih h

theorem get_add_cases (sv : StateVector) (q : String) (c : Nat) (p : String)
    (rs : List Range) (h : (sv.add q c).get p = some rs) :
    (∃ rs0, rs = addRanges q rs0 c) ∨ sv.get p = some rs := by
  unfold StateVector.add at h
  cases hq : sv.get q with
  | some rs1 =>
    rw [hq] at h
    rcases get_updateEntry sv.ranges q (addRanges q rs1 c) p rs h with h1 | h1
    · exact Or.inl ⟨rs1, h1⟩
    · exact Or.inr h1
  | none =>
    rw [hq] at h
    rcases get_append_single sv.ranges q (addRanges q [] c) p rs h with h1 | h1
    · exact Or.inl ⟨[], h1⟩
    · exact Or.inr h1

/-- C5: after any sequence of `add` calls starting from the empty state
vector, every stored peer entry is in range normal form: sorted by start
and with a gap between consecutive ranges. -/
theorem c5_add_preserves_normal_form (adds : List (String × Nat)) (p : String)
    (rs : List Range)
    (h : (applyAdds ⟨[]⟩ adds).get p = some rs) : normalForm rs = true := by
  suffices hgen : ∀ (adds : List (String × Nat)) (sv : StateVector),
      (∀ p rs, sv.get p = some rs → normalForm rs = true) →
      ∀ p rs, (applyAdds sv adds).get p = some rs → normalForm rs = true by
    refine hgen adds ⟨[]⟩ ?_ p rs h
    intro p rs h0
    simp [StateVector.get, List.find?] at h0
  intro adds
  induction adds with
  | nil =>
    intro sv hinv p rs h0
    exact hinv p rs h0
  | cons pc rest ih =>
    intro sv hinv p rs h0
    refine ih (sv.add pc.1 pc.2) ?_ p rs h0
    intro p1 rs1 h1
    rcases get_add_cases sv pc.1 pc.2 p1 rs1 h1 with ⟨rs0, hrs0⟩ | h2
    · rw [hrs0]; exact addRanges_nf pc.1 rs0 pc.2
    · exact hinv p1 rs1 h2

/-- C5 (witness): the normal-form invariant evaluated after the adds
(p1,3), (p1,1), (p1,2), which merge into the single range 1..3. -/
theorem c5_add_preserves_normal_form_witness :
    (applyAdds ⟨[]⟩ [("p1", 3), ("p1", 1), ("p1", 2)]).get "p1" =
      some [⟨"p1", 1, 3⟩] ∧
    normalForm [⟨"p1", 1, 3⟩] = true :=
  ⟨rfl, c5_add_preserves_normal_form [("p1", 3), ("p1", 1), ("p1", 2)] "p1"
    [⟨"p1", 1, 3⟩] rfl⟩

theorem rangeCovers_iff (r : Range) (c : Nat) :
    rangeCovers r c = true ↔ (r.start ≤ c ∧ c ≤ r.stop) := by
  simp [rangeCovers]

theorem coversList_iff (rs : List Range) (c : Nat) :
    coversList rs c = true ↔ ∃ r ∈ rs, r.start ≤ c ∧ c ≤ r.stop := by
  simp [coversList, rangeCovers]

theorem nf_tail (r : Range) (rs : List Range)
    (h : normalForm (r :: rs) = true) : normalForm rs = true := by
  cases rs with
  | nil => rfl
  | cons r2 rs2 =>
    simp [normalForm] at h
    simp [normalForm, h.2]

theorem nf_head_lt (x : Range) (xs : List Range)
    (h : normalForm (x :: xs) = true) :
    ∀ r ∈ xs, x.stop + 1 < r.start ∧ x.start ≤ r.start := by
  induction xs generalizing x with
  | nil => intro r hr; cases hr
  | cons y ys ih =>
    intro r hr
    have hxy : x.start ≤ y.start ∧ x.stop + 1 < y.start := by
      simp [normalForm] at h
      exact ⟨h.1.1, h.1.2⟩
    rcases List.mem_cons.mp hr with hr | hr
    · subst hr; exact ⟨hxy.2, hxy.1⟩
    · have htail : normalForm (y :: ys) = true := nf_tail x (y :: ys) h
      have := ih y htail r hr
      constructor <;> omega

theorem extendRanges_covered (c : Nat) (rs : List Range)
    (hnf : normalForm rs = true) (hcov : coversList rs c = true) :
    extendRanges c rs = some rs := by
  induction rs with
  | nil => simp [coversList] at hcov
  | cons r tail ih =>
    by_cases hin : r.start ≤ c ∧ c ≤ r.stop
    · have hne1 : ¬ (r.stop + 1 = c) := by omega
      have hne2 : ¬ (c + 1 = r.start) := by omega
      simp [extendRanges, hne1, hne2, hin]
    · obtain ⟨r2, hr2mem, hr2a, hr2b⟩ :
          ∃ r2 ∈ tail, r2.start ≤ c ∧ c ≤ r2.stop := by
        rcases (coversList_iff _ _).mp hcov with ⟨r2, hmem, hc⟩
        rcases List.mem_cons.mp hmem with hmem | hmem
        · exact absurd (hmem ▸ hc) hin
        · exact ⟨r2, hmem, hc.1, hc.2⟩
      have hlt := nf_head_lt r tail hnf r2 hr2mem
      have hne1 : ¬ (r.stop + 1 = c) := by omega
      have hne2 : ¬ (c + 1 = r.start) := by omega
      have hcovtail : coversList tail c = true :=
        (coversList_iff _ _).mpr ⟨r2, hr2mem, hr2a, hr2b⟩
      simp only [extendRanges, if_neg hne1, if_neg hne2, if_neg hin,
        ih (nf_tail r tail hnf) hcovtail]
      rfl

theorem sortedByStart_of_nf (l : List Range) (h : normalForm l = true) :
    sortedByStart l = true := by
  induction l with
  | nil => rfl
  | cons r rs ih =>
    cases rs with
    | nil => rfl
    | cons r2 rs2 =>
      simp [normalForm] at h
      simp [sortedByStart, h.1.1]
      exact ih (by simp [normalForm, h.2])

theorem insertByStart_id (a : Range) (l : List Range)
    (h : sortedByStart (a :: l) = true) : insertByStart a l = a :: l := by
  cases l with
  | nil => rfl
  | cons b bs =>
    have : a.start ≤ b.start := by
      simp [sortedByStart] at h
      exact h.1
    simp [insertByStart, this]

theorem sortByStart_id (l : List Range) (h : sortedByStart l = true) :
    sortByStart l = l := by
  induction l with
  | nil => rfl
  | cons a xs ih =>
    have htail : sortedByStart xs = true := by
      cases xs with
      | nil => rfl
      | cons b bs =>
        simp [sortedByStart] at h
        exact h.2
    simp only [sortByStart, ih htail]
    exact insertByStart_id a xs h

theorem mergeLoop_id (p : String) (cur : Range) (l : List Range)
    (h : normalForm (cur :: l) = true) : mergeLoop p cur l = cur :: l := by
  induction l generalizing cur with
  | nil => rfl
  | cons r rs ih =>
    have hgap : cur.stop + 1 < r.start := by
      simp [normalForm] at h
      exact h.1.2
    have hng : ¬ (r.start ≤ cur.stop + 1) := by omega
    simp only [mergeLoop, if_neg hng]
    rw [ih r (nf_tail cur (r :: rs) h)]

theorem normalizeRanges_id (p : String) (l : List Range)
    (h : normalForm l = true) : normalizeRanges p l = l := by
  unfold normalizeRanges
  rw [sortByStart_id l (sortedByStart_of_nf l h)]
  cases l with
  | nil => rfl
  | cons r rs => exact mergeLoop_id p r rs h

theorem addRanges_id (p : String) (rs : List Range) (c : Nat)
    (hnf : normalForm rs = true) (hcov : coversList rs c = true) :
    addRanges p rs c = rs := by
  unfold addRanges
  rw [extendRanges_covered c rs hnf hcov]
  exact normalizeRanges_id p rs hnf

theorem updateEntry_self (l : List (String × List Range)) (p : String)
    (rs : List Range) (h : (StateVector.mk l).get p = some rs) :
    updateEntry l p rs = l := by
  induction l with
  | nil => rfl
  | cons e es ih =>
    by_cases hep : (e.1 == p) = true
    · have h2 : e.2 = rs := by
        simp [StateVector.get, List.find?, hep] at h
        exact h
      simp [updateEntry, hep, ← h2]
    · rw [Bool.not_eq_true] at hep
      simp only [StateVector.get, List.find?, hep] at h
      simp only [updateEntry, hep, Bool.false_eq_true, if_false]
      rw [ih h]

/-- C6: `StateVector::add` is idempotent on covered points: if the
peer's stored range list is in normal form (as every list built by `add`
is, by `c5_add_preserves_normal_form`) and already covers the counter,
`add` returns the state vector unchanged. -/
theorem c6_add_idempotent (sv : StateVector) (p : String) (c : Nat)
    (rs : List Range) (hget : sv.get p = some rs)
    (hnf : normalForm rs = true) (hcov : coversList rs c = true) :
    sv.add p c = sv := by
  unfold StateVector.add
  rw [hget]
  dsimp only
  rw [addRanges_id p rs c hnf hcov, updateEntry_self sv.ranges p rs hget]

/-- C6 (witness): adding the already-covered counter 2 to the normal-form
state vector holding 1..3 for p1 is a no-op. -/
theorem c6_add_idempotent_witness :
    (StateVector.mk [("p1", [⟨"p1", 1, 3⟩])]).get "p1" = some [⟨"p1", 1, 3⟩] ∧
    normalForm [⟨"p1", 1, 3⟩] = true ∧
    coversList [⟨"p1", 1, 3⟩] 2 = true ∧
    (StateVector.mk [("p1", [⟨"p1", 1, 3⟩])]).add "p1" 2 =
      StateVector.mk [("p1", [⟨"p1", 1, 3⟩])] :=
  ⟨rfl, rfl, rfl,
    c6_add_idempotent (StateVector.mk [("p1", [⟨"p1", 1, 3⟩])]) "p1" 2
      [⟨"p1", 1, 3⟩] rfl rfl rfl⟩

/-! ## Diff membership lemmas (C4) -/

theorem cover_subtractRange (p : String) (t : Range) (c : Nat) (rem : List Range) :
    (∃ r ∈ subtractRange p t rem, r.start ≤ c ∧ c ≤ r.stop) ↔
      ((∃ r ∈ rem, r.start ≤ c ∧ c ≤ r.stop) ∧ (c < t.start ∨ t.stop < c)) := by
  induction rem with
  | nil => simp [subtractRange]
  | cons r rest ih =>
    simp only [subtractRange]
    split_ifs with h1 h2 h3 h4 h4
    · simp only [List.mem_cons, exists_eq_or_imp] at ih ⊢
      constructor
      · rintro (hpr | hx)
        · exact ⟨Or.inl hpr, by omega⟩
        · have := ih.mp hx
          exact ⟨Or.inr this.1, this.2⟩
      · rintro ⟨hpr | hx, ht⟩
        · exact Or.inl hpr
        · exact Or.inr (ih.mpr ⟨hx, ht⟩)
    · simp only [List.mem_cons, exists_eq_or_imp] at ih ⊢
      constructor
      · rintro (hpr | hx)
        · exact ⟨Or.inl hpr, by omega⟩
        · have := ih.mp hx
          exact ⟨Or.inr this.1, this.2⟩
      · rintro ⟨hpr | hx, ht⟩
        · exact Or.inl hpr
        · exact Or.inr (ih.mpr ⟨hx, ht⟩)
    · -- both split pieces present
      simp only [List.mem_cons, List.mem_append, List.mem_singleton,
        List.not_mem_nil, or_false, false_or, exists_eq_or_imp] at ih ⊢
      constructor
      · rintro ⟨x, ((rfl | rfl) | hx), hxc⟩
        · dsimp only at hxc
          exact ⟨Or.inl ⟨by omega, by omega⟩, by omega⟩
        · dsimp only at hxc
          exact ⟨Or.inl ⟨by omega, by omega⟩, by omega⟩
        · have := ih.mp ⟨x, hx, hxc⟩
          exact ⟨Or.inr this.1, this.2⟩
      · rintro ⟨hpr | hx, ht⟩
        · rcases ht with ht | ht
          · exact ⟨⟨p, r.start, t.start - 1⟩, Or.inl (Or.inl rfl), by dsimp only; omega, by dsimp only; omega⟩
          · exact ⟨⟨p, t.stop + 1, r.stop⟩, Or.inl (Or.inr rfl), by dsimp only; omega, by dsimp only; omega⟩
        · obtain ⟨x, hx, hxc⟩ := ih.mpr ⟨hx, ht⟩
          exact ⟨x, Or.inr hx, hxc⟩
    · -- only the left piece
      simp only [List.mem_cons, List.mem_append, List.mem_singleton,
        List.not_mem_nil, or_false, false_or, exists_eq_or_imp] at ih ⊢
      constructor
      · rintro (hp | ⟨x, hx, hxc⟩)
        · exact ⟨Or.inl ⟨by omega, by omega⟩, by omega⟩
        · have := ih.mp ⟨x, hx, hxc⟩
          exact ⟨Or.inr this.1, this.2⟩
      · rintro ⟨hpr | hx, ht⟩
        · rcases ht with ht | ht
          · exact Or.inl ⟨by omega, by omega⟩
          · exact absurd ht (by omega)
        · obtain ⟨x, hx, hxc⟩ := ih.mpr ⟨hx, ht⟩
          exact Or.inr ⟨x, hx, hxc⟩
    · -- only the right piece
      simp only [List.mem_cons, List.mem_append, List.mem_singleton,
        List.not_mem_nil, or_false, false_or, exists_eq_or_imp] at ih ⊢
      constructor
      · rintro (hp | ⟨x, hx, hxc⟩)
        · exact ⟨Or.inl ⟨by omega, by omega⟩, by omega⟩
        · have := ih.mp ⟨x, hx, hxc⟩
          exact ⟨Or.inr this.1, this.2⟩
      · rintro ⟨hpr | hx, ht⟩
        · rcases ht with ht | ht
          · exact absurd ht (by omega)
          · exact Or.inl ⟨by omega, by omega⟩
        · obtain ⟨x, hx, hxc⟩ := ih.mpr ⟨hx, ht⟩
          exact Or.inr ⟨x, hx, hxc⟩
    · -- no piece: r is swallowed whole
      simp only [List.mem_cons, exists_eq_or_imp] at ih ⊢
      constructor
      · intro hx
        have := ih.mp hx
        exact ⟨Or.inr this.1, this.2⟩
      · rintro ⟨hpr | hx, ht⟩
        · exact absurd ht (by omega)
        · exact ih.mpr ⟨hx, ht⟩

theorem cover_subtractAll (p : String) (c : Nat) (ts : List Range) :
    ∀ rem : List Range,
      (∃ r ∈ subtractAll p rem ts, r.start ≤ c ∧ c ≤ r.stop) ↔
        ((∃ r ∈ rem, r.start ≤ c ∧ c ≤ r.stop) ∧
          ∀ t ∈ ts, c < t.start ∨ t.stop < c) := by
  induction ts with
  | nil => intro rem; simp [subtractAll]
  | cons t ts ih =>
    intro rem
    have hstep : subtractAll p rem (t :: ts) = subtractAll p (subtractRange p t rem) ts := rfl
    rw [hstep, ih (subtractRange p t rem), cover_subtractRange]
    constructor
    · rintro ⟨⟨hx, hout⟩, hall⟩
      refine ⟨hx, ?_⟩
      intro t2 ht2
      rcases List.mem_cons.mp ht2 with rfl | ht2
      · exact hout
      · exact hall t2 ht2
    · rintro ⟨hx, hall⟩
      exact ⟨⟨hx, hall t (List.mem_cons_self t ts)⟩,
        fun t2 ht2 => hall t2 (List.mem_cons_of_mem t ht2)⟩

theorem subtractRange_peer (p : String) (t : Range) :
    ∀ rem : List Range, (∀ r ∈ rem, r.peer_id = p) →
      ∀ r ∈ subtractRange p t rem, r.peer_id = p := by
  intro rem
  induction rem with
  | nil => intro _ r hr; simp [subtractRange] at hr
  | cons x rest ih =>
    intro hall r hr
    have hx : x.peer_id = p := hall x (List.mem_cons_self x rest)
    have hrest : ∀ r ∈ rest, r.peer_id = p :=
      fun r hr => hall r (List.mem_cons_of_mem x hr)
    simp only [subtractRange] at hr
    split_ifs at hr with h1 h2 h3 h4 h4
    · rcases List.mem_cons.mp hr with rfl | hr
      · exact hx
      · exact ih hrest r hr
    · rcases List.mem_cons.mp hr with rfl | hr
      · exact hx
      · exact ih hrest r hr
    · simp only [List.mem_append, List.mem_singleton] at hr
      rcases hr with (rfl | rfl) | hr
      · rfl
      · rfl
      · exact ih hrest r hr
    · simp only [List.mem_append, List.mem_singleton, List.not_mem_nil,
        or_false, false_or] at hr
      rcases hr with rfl | hr
      · rfl
      · exact ih hrest r hr
    · simp only [List.mem_append, List.mem_singleton, List.not_mem_nil,
        or_false, false_or] at hr
      rcases hr with rfl | hr
      · rfl
      · exact ih hrest r hr
    · exact ih hrest r hr

theorem subtractAll_peer (p : String) (ts : List Range) :
    ∀ rem : List Range, (∀ r ∈ rem, r.peer_id = p) →
      ∀ r ∈ subtractAll p rem ts, r.peer_id = p := by
  induction ts with
  | nil => intro rem hall; exact hall
  | cons t ts ih =>
    intro rem hall
    exact ih (subtractRange p t rem) (subtractRange_peer p t rem hall)

theorem coversList_false_iff (rs : List Range) (c : Nat) :
    coversList rs c = false ↔ ∀ r ∈ rs, c < r.start ∨ r.stop < c := by
  rw [← Bool.not_eq_true, coversList_iff]
  constructor
  · intro h r hr
    by_cases h1 : c < r.start
    · exact Or.inl h1
    · refine Or.inr ?_
      by_cases h2 : r.stop < c
      · exact h2
      · exact absurd ⟨r, hr, by omega, by omega⟩ h
  · rintro h ⟨r, hr, h1, h2⟩
    rcases h r hr with h3 | h3 <;> omega

theorem get_of_mem_nodup (l : List (String × List Range))
    (hnod : KeysNodup l) (e : String × List Range) (he : e ∈ l) :
    (StateVector.mk l).get e.1 = some e.2 := by
  induction l with
  | nil => cases he
  | cons x xs ih =>
    rcases List.mem_cons.mp he with rfl | he
    · simp [StateVector.get, List.find?]
    · have hx : x.1 ≠ e.1 := by
        intro hcontra
        have : x.1 ∈ xs.map Prod.fst := by
          rw [hcontra]
          exact List.mem_map_of_mem Prod.fst he
        have := (List.nodup_cons.mp hnod).1
        exact this (by assumption)
      have hxb : (x.1 == e.1) = false := by
        simp [hx]
      have hnod2 : KeysNodup xs := (List.nodup_cons.mp hnod).2
      have := ih hnod2 he
      simp only [StateVector.get, List.find?, hxb] at this ⊢
      exact this

theorem get_mem_of_some (l : List (String × List Range)) (p : String)
    (rs : List Range) (h : (StateVector.mk l).get p = some rs) :
    (p, rs) ∈ l := by
  induction l with
  | nil => simp [StateVector.get, List.find?] at h
  | cons x xs ih =>
    by_cases hx : (x.1 == p) = true
    · have h1 : x.1 = p := by simpa using hx
      have h2 : x.2 = rs := by
        simp [StateVector.get, List.find?, hx] at h
        exact h
      have h3 : (p, rs) = x := by rw [← h1, ← h2]
      rw [h3]
      exact List.mem_cons_self x xs
    · rw [Bool.not_eq_true] at hx
      simp only [StateVector.get, List.find?, hx] at h
      exact List.mem_cons_of_mem x (ih h)

/-- C4: `StateVector::diff` computes exactly the directional set
difference: a counter of a peer is covered by some emitted range iff our
vector covers it and theirs does not (stated for well-formed vectors:
distinct peer keys and ranges stamped with their peer); moreover on the
S5 instance the result is exactly `[(p1,3,3), (p1,5,5)]`. -/
theorem c4_diff_covers (a b : StateVector)
    (hnod : KeysNodup a.ranges) (hinner : InnerPeersOk a.ranges)
    (p : String) (c : Nat) :
    ((∃ r ∈ a.diff b, r.peer_id = p ∧ r.start ≤ c ∧ c ≤ r.stop) ↔
      (a.covers p c = true ∧ b.covers p c = false)) ∧
    svA5.diff svB5 = [⟨"p1", 3, 3⟩, ⟨"p1", 5, 5⟩] := by
  refine ⟨?_, by rfl⟩
  constructor
  · rintro ⟨r, hr, hpeer, hc1, hc2⟩
    simp only [StateVector.diff, List.mem_flatMap] at hr
    obtain ⟨e, he, hr⟩ := hr
    obtain ⟨r0, hr0, hrsub⟩ := hr
    have hr0peer : r0.peer_id = e.1 := hinner e he r0 hr0
    have hpeers : ∀ x ∈ subtractAll e.1 [r0] ((b.get e.1).getD []), x.peer_id = e.1 := by
      refine subtractAll_peer e.1 _ [r0] ?_
      intro x hx
      rw [List.mem_singleton.mp hx]
      exact hr0peer
    have hep : e.1 = p := by rw [← hpeers r hrsub]; exact hpeer
    have hcov0 := (cover_subtractAll e.1 c ((b.get e.1).getD []) [r0]).mp
      ⟨r, hrsub, hc1, hc2⟩
    obtain ⟨⟨x0, hx0, hx0c⟩, hball⟩ := hcov0
    rw [List.mem_singleton.mp hx0] at hx0c
    have hagete : a.get e.1 = some e.2 := get_of_mem_nodup a.ranges hnod e he
    constructor
    · rw [← hep]
      simp only [StateVector.covers, hagete]
      exact (coversList_iff e.2 c).mpr ⟨r0, hr0, hx0c⟩
    · rw [← hep]
      cases hbg : b.get e.1 with
      | none => simp [StateVector.covers, hbg]
      | some rs2 =>
        rw [hbg] at hball
        simp only [StateVector.covers, hbg]
        exact (coversList_false_iff rs2 c).mpr hball
  · rintro ⟨hac, hbc⟩
    cases hag : a.get p with
    | none => simp [StateVector.covers, hag] at hac
    | some rs =>
      simp only [StateVector.covers, hag] at hac
      have hmem : (p, rs) ∈ a.ranges := get_mem_of_some a.ranges p rs hag
      obtain ⟨r0, hr0, h1, h2⟩ := (coversList_iff rs c).mp hac
      have hB : ∀ t ∈ ((b.get p).getD []), c < t.start ∨ t.stop < c := by
        cases hbg : b.get p with
        | none => simp
        | some rs2 =>
          simp only [StateVector.covers, hbg] at hbc
          simpa using (coversList_false_iff rs2 c).mp hbc
      obtain ⟨r, hrsub, hc1, hc2⟩ :=
        (cover_subtractAll p c ((b.get p).getD []) [r0]).mpr
          ⟨⟨r0, List.mem_singleton_self r0, h1, h2⟩, hB⟩
      have hr0peer : r0.peer_id = p := hinner (p, rs) hmem r0 hr0
      have hrpeer : r.peer_id = p := by
        refine subtractAll_peer p _ [r0] ?_ r hrsub
        intro x hx
        rw [List.mem_singleton.mp hx]
        exact hr0peer
      refine ⟨r, ?_, hrpeer, hc1, hc2⟩
      simp only [StateVector.diff, List.mem_flatMap]
      exact ⟨(p, rs), hmem, r0, hr0, hrsub⟩

/-- C4 (witness): the diff-membership characterization instantiated on
the S5 state vectors at peer p1, counter 3. -/
theorem c4_diff_covers_witness :
    KeysNodup svA5.ranges ∧ InnerPeersOk svA5.ranges ∧
    ((∃ r ∈ svA5.diff svB5, r.peer_id = "p1" ∧ r.start ≤ 3 ∧ 3 ≤ r.stop) ↔
      (svA5.covers "p1" 3 = true ∧ svB5.covers "p1" 3 = false)) :=
  ⟨by unfold KeysNodup; decide, by unfold InnerPeersOk; decide,
    (c4_diff_covers svA5 svB5 (by unfold KeysNodup; decide)
      (by unfold InnerPeersOk; decide) "p1" 3).1⟩

/-! ## get_children lemmas (C8) -/

theorem mem_insertByIdx (a x : EncodedVertex) (l : List EncodedVertex) :
    x ∈ insertByIdx a l ↔ x = a ∨ x ∈ l := by
  induction l with
  | nil => simp [insertByIdx]
  | cons b bs ih =>
    by_cases hab : a.idx ≤ b.idx
    · simp [insertByIdx, hab, List.mem_cons]
    · simp only [insertByIdx, if_neg hab, List.mem_cons, ih]
      tauto

theorem mem_sortByIdx (x : EncodedVertex) (l : List EncodedVertex) :
    x ∈ sortByIdx l ↔ x ∈ l := by
  induction l with
  | nil => simp [sortByIdx]
  | cons a xs ih =>
    simp only [sortByIdx, mem_insertByIdx, ih, List.mem_cons]

theorem insertByIdx_sortedLe (a : EncodedVertex) (l : List EncodedVertex)
    (h : idxSortedLe l = true) :
    idxSortedLe (insertByIdx a l) = true := by
  induction l with
  | nil => simp [insertByIdx, idxSortedLe]
  | cons b bs ih =>
    by_cases hab : a.idx ≤ b.idx
    · simp [insertByIdx, hab, idxSortedLe, h]
    · have hb : b.idx ≤ a.idx := by omega
      simp only [insertByIdx, if_neg hab]
      cases bs with
      | nil => simp [insertByIdx, idxSortedLe, hb]
      | cons c cs =>
        have htail : idxSortedLe (c :: cs) = true := by
          simp [idxSortedLe] at h
          exact h.2
        have hbc : b.idx ≤ c.idx := by
          simp [idxSortedLe] at h
          exact h.1
        have ih2 := ih htail
        by_cases hac : a.idx ≤ c.idx
        · simp [insertByIdx, hac, idxSortedLe, hb, htail]
        · simp only [insertByIdx, if_neg hac] at ih2 ⊢
          simp [idxSortedLe, hbc, ih2]

theorem sortByIdx_sortedLe (l : List EncodedVertex) :
    idxSortedLe (sortByIdx l) = true := by
  induction l with
  | nil => rfl
  | cons a xs ih => exact insertByIdx_sortedLe a (sortByIdx xs) ih

theorem insertByIdx_length (a : EncodedVertex) (l : List EncodedVertex) :
    (insertByIdx a l).length = l.length + 1 := by
  induction l with
  | nil => rfl
  | cons b bs ih =>
    by_cases hab : a.idx ≤ b.idx
    · simp [insertByIdx, hab]
    · simp [insertByIdx, hab, ih]

theorem sortByIdx_length (l : List EncodedVertex) :
    (sortByIdx l).length = l.length := by
  induction l with
  | nil => rfl
  | cons a xs ih => simp [sortByIdx, insertByIdx_length, ih]

theorem lookupCache_some_mem (cache : VertexCache) (id : String)
    (v : EncodedVertex) (h : lookupCache cache id = some v) :
    ∃ e ∈ cache, e.1 = id ∧ e.2 = v := by
  unfold lookupCache at h
  cases hf : cache.find? (fun e => e.1 == id) with
  | none => rw [hf] at h; cases h
  | some e =>
    rw [hf] at h
    have hmem := List.mem_of_find?_eq_some hf
    have hpred := List.find?_some hf
    have h1 : e.1 = id := by simpa using hpred
    have h2 : e.2 = v := by simpa using h
    exact ⟨e, hmem, h1, h2⟩

theorem getVertexC_coherent_fst (cache : VertexCache) (store : List EncodedVertex)
    (id : String) (hco : CacheCoherent cache store) :
    (getVertexC cache store id).1 = findStore store id := by
  unfold getVertexC
  cases hl : lookupCache cache id with
  | some v =>
    obtain ⟨e, he, h1, h2⟩ := lookupCache_some_mem cache id v hl
    have := hco e he
    rw [h1, h2] at this
    simp [this]
  | none => cases hf : findStore store id <;> simp [hf]

theorem mem_putCache (c : VertexCache) (id : String) (v : EncodedVertex) :
    ∀ e ∈ putCache c id v, e = (id, v) ∨ e ∈ c := by
  induction c with
  | nil => intro e he; simp [putCache] at he; exact Or.inl he
  | cons x xs ih =>
    intro e he
    by_cases hx : (x.1 == id) = true
    · simp only [putCache, hx, if_true] at he
      rcases List.mem_cons.mp he with rfl | he
      · exact Or.inl rfl
      · exact Or.inr (List.mem_cons_of_mem x he)
    · rw [Bool.not_eq_true] at hx
      simp only [putCache, hx, Bool.false_eq_true, if_false] at he
      rcases List.mem_cons.mp he with rfl | he
      · exact Or.inr (List.mem_cons_self e xs)
      · rcases ih e he with h | h
        · exact Or.inl h
        · exact Or.inr (List.mem_cons_of_mem x h)

theorem getVertexC_coherent_snd (cache : VertexCache) (store : List EncodedVertex)
    (id : String) (hco : CacheCoherent cache store) :
    CacheCoherent (getVertexC cache store id).2 store := by
  unfold getVertexC
  cases hl : lookupCache cache id with
  | some v => exact hco
  | none =>
    cases hf : findStore store id with
    | some w =>
      intro e he
      rcases mem_putCache cache id w e he with rfl | he
      · exact hf
      · exact hco e he
    | none => exact hco

theorem hydrate_coherent (store : List EncodedVertex) :
    ∀ (page : List (String × Int)) (cache : VertexCache),
      CacheCoherent cache store →
      (hydrate store cache page).1 =
        page.filterMap (fun pr => findStore store pr.1) := by
  intro page
  induction page with
  | nil => intro cache _; rfl
  | cons pr rest ih =>
    intro cache hco
    have hfst := getVertexC_coherent_fst cache store pr.1 hco
    have hsnd := getVertexC_coherent_snd cache store pr.1 hco
    simp only [hydrate]
    cases hf : findStore store pr.1 with
    | some v =>
      rw [hfst, hf]
      simp only [List.filterMap_cons, hf]
      rw [ih (getVertexC cache store pr.1).2 hsnd]
    | none =>
      rw [hfst, hf]
      simp only [List.filterMap_cons, hf]
      exact ih (getVertexC cache store pr.1).2 hsnd

theorem findStore_mem_nodup (store : List EncodedVertex)
    (hnd : StoreKeysNodup store) (v : EncodedVertex) (hv : v ∈ store) :
    findStore store v.id = some v := by
  induction store with
  | nil => cases hv
  | cons x xs ih =>
    rcases List.mem_cons.mp hv with rfl | hv
    · simp [findStore, List.find?]
    · have hx : x.id ≠ v.id := by
        intro hcontra
        have h1 : x.id ∈ xs.map (fun w => w.id) := by
          rw [hcontra]
          exact List.mem_map_of_mem (fun w => w.id) hv
        exact (List.nodup_cons.mp hnd).1 h1
      have hxb : (x.id == v.id) = false := by simp [hx]
      have hnd2 : StoreKeysNodup xs := (List.nodup_cons.mp hnd).2
      simp only [findStore, List.find?, hxb]
      exact ih hnd2 hv

theorem findStore_some_mem (store : List EncodedVertex) (id : String)
    (v : EncodedVertex) (h : findStore store id = some v) :
    v ∈ store ∧ v.id = id := by
  unfold findStore at h
  cases hf : store.find? (fun w => w.id == id) with
  | none => rw [hf] at h; cases h
  | some w =>
    rw [hf] at h
    cases h
    have hmem := List.mem_of_find?_eq_some hf
    have hpred := List.find?_some hf
    exact ⟨hmem, by simpa using hpred⟩

/-- C8 (amended): with a coherent cache and distinct store ids,
`get_children(P)` returns vertices of parent P in non-decreasing (not
necessarily strict) `idx` order, reading a single page of at most 1000
children; when P has at most 1000 children in the store, every child is
returned. -/
theorem c8_get_children_single_page (s : RepTree) (P : String)
    (hco : CacheCoherent s.cache s.store) (hnd : StoreKeysNodup s.store) :
    idxSortedLe ((getChildren s P).1) = true ∧
    (∀ v ∈ (getChildren s P).1, v.parent_id = some P) ∧
    ((s.store.filter (fun v => v.parent_id == some P)).length ≤ 1000 →
      ∀ v ∈ s.store, v.parent_id = some P → v ∈ (getChildren s P).1) := by
  have hpage : getChildrenPage s.store P none 1000 =
      ((sortByIdx (s.store.filter (fun v => v.parent_id == some P))).take 1000).map
        (fun v => (v.id, v.idx)) := by
    unfold getChildrenPage
    simp only [Bool.and_true]
  have hchildren : (getChildren s P).1 =
      sortByIdx ((getChildrenPage s.store P none 1000).filterMap
        (fun pr => findStore s.store pr.1)) := by
    unfold getChildren
    rw [hydrate_coherent s.store _ s.cache hco]
  refine ⟨?_, ?_, ?_⟩
  · rw [hchildren]
    exact sortByIdx_sortedLe _
  · intro v hv
    rw [hchildren, mem_sortByIdx] at hv
    obtain ⟨pr, hpr, hfind⟩ := List.mem_filterMap.mp hv
    rw [hpage] at hpr
    obtain ⟨w, hw, heq⟩ := List.mem_map.mp hpr
    have hw2 : w ∈ sortByIdx (s.store.filter (fun v => v.parent_id == some P)) :=
      List.take_subset 1000 _ hw
    rw [mem_sortByIdx] at hw2
    have hw3 := List.mem_filter.mp hw2
    have hwparent : w.parent_id = some P := by simpa using hw3.2
    have hwfind : findStore s.store w.id = some w :=
      findStore_mem_nodup s.store hnd w hw3.1
    rw [← heq] at hfind
    simp only at hfind
    rw [hwfind] at hfind
    cases hfind
    exact hwparent
  · intro hlen v hv hparent
    have hvfilter : v ∈ s.store.filter (fun v => v.parent_id == some P) :=
      List.mem_filter.mpr ⟨hv, by simp [hparent]⟩
    have hlen2 : (sortByIdx (s.store.filter (fun v => v.parent_id == some P))).length ≤ 1000 := by
      rw [sortByIdx_length]
      exact hlen
    have htake : (sortByIdx (s.store.filter (fun v => v.parent_id == some P))).take 1000 =
        sortByIdx (s.store.filter (fun v => v.parent_id == some P)) :=
      List.take_of_length_le hlen2
    have hvpage : (v.id, v.idx) ∈ getChildrenPage s.store P none 1000 := by
      rw [hpage, htake]
      exact List.mem_map_of_mem _ ((mem_sortByIdx v _).mpr hvfilter)
    rw [hchildren, mem_sortByIdx]
    refine List.mem_filterMap.mpr ⟨(v.id, v.idx), hvpage, ?_⟩
    exact findStore_mem_nodup s.store hnd v hv

/-- C8 (witness): the amended single-page characterization applied to
S2's replica at parent "root". -/
theorem c8_get_children_single_page_witness :
    CacheCoherent scenarioS2.cache scenarioS2.store ∧
    StoreKeysNodup scenarioS2.store ∧
    (idxSortedLe ((getChildren scenarioS2 "root").1) = true ∧
      (∀ v ∈ (getChildren scenarioS2 "root").1, v.parent_id = some "root") ∧
      ((scenarioS2.store.filter (fun v => v.parent_id == some "root")).length ≤ 1000 →
        ∀ v ∈ scenarioS2.store, v.parent_id = some "root" →
          v ∈ (getChildren scenarioS2 "root").1)) := by
  have hco : CacheCoherent scenarioS2.cache scenarioS2.store := by
    intro e he
    have h3 : scenarioS2.cache =
        [("root", ⟨"root", none, 0, [("name", VertexPropertyType.string "Root")]⟩),
         ("c1", ⟨"c1", some "root", 0, []⟩),
         ("c2", ⟨"c2", some "root", 0, []⟩)] := rfl
    rw [h3] at he
    rcases List.mem_cons.mp he with rfl | he
    · rfl
    rcases List.mem_cons.mp he with rfl | he
    · rfl
    rcases List.mem_cons.mp he with rfl | he
    · rfl
    cases he
  have hnd : StoreKeysNodup scenarioS2.store := by
    unfold StoreKeysNodup
    decide
  exact ⟨hco, hnd, c8_get_children_single_page scenarioS2 "root" hco hnd⟩
